import Mathlib

/-!
Shallow embedding of `src/text_redact.py` (pdf2retxt).

Text is modelled as `List Char`.  Python's `re.sub(re.escape(term), repl, text,
flags)` is a literal, left-to-right, non-overlapping replace-all: `re.escape`
neutralizes every metacharacter, so the compiled pattern matches exactly the
literal term, and `re.IGNORECASE` compares characters up to case folding
(modelled with `Char.toLower`, adequate for ASCII).  `reSub` below embeds that
composite behaviour; `redact_text`, `load_terms`, the page-concatenation loop of
`extract_and_redact_text`, the write gate of `text_redact_pdf` and the
success/failure tally of `main` are translated line by line from the source.
-/

/-- Character comparison used by matching: identity when case-sensitive,
`Char.toLower` images otherwise (Python `re.IGNORECASE`). -/
def foldC (cs : Bool) (c : Char) : Char := if cs then c else c.toLower

/-- Does `pat` match (as a literal, up to case folding) at the head of the text? -/
def matchHead (cs : Bool) : List Char → List Char → Bool
  | [], _ => true
  | _ :: _, [] => false
  | p :: ps, c :: rest => (foldC cs p == foldC cs c) && matchHead cs ps rest

/-- Scanner of `re.sub` for a non-empty literal pattern.  The `Nat` is a
skip-state: after a match the `pat.length - 1` characters following the matched
head still have to be consumed before scanning resumes. -/
def subGo (cs : Bool) (pat repl : List Char) : Nat → List Char → List Char
  | _, [] => []
  | skip+1, _ :: rest => subGo cs pat repl skip rest
  | 0, c :: rest =>
    if matchHead cs pat (c :: rest) then
      repl ++ subGo cs pat repl (pat.length - 1) rest
    else
      c :: subGo cs pat repl 0 rest

/-- `re.sub(re.escape(pat), repl, s, flags)`: replace every non-overlapping
literal occurrence of `pat`, scanning left to right.  For the empty pattern
Python inserts the replacement at every position. -/
def reSub (cs : Bool) (pat repl s : List Char) : List Char :=
  match pat with
  | [] => repl ++ s.flatMap (fun c => c :: repl)
  | _ :: _ => subGo cs pat repl 0 s

/-- The fixed redaction marker of `redact_text`. -/
def marker : List Char := "[REDACTED]".toList

/-- `redact_text(text, terms, case_sensitive=False)` from the source:
empty text or empty term list is returned unchanged; otherwise the empty terms
are filtered out (`filter(None, terms)`) and each remaining term is substituted
in sequence over the shared buffer. -/
def redact_text (text : List Char) (terms : List (List Char))
    (case_sensitive : Bool := false) : List Char :=
  if text.isEmpty || terms.isEmpty then text
  else
    (terms.filter (fun t => !t.isEmpty)).foldl
      (fun acc t => reSub case_sensitive t marker acc) text

/-- Does `pat` occur (as a literal, up to case folding when `cs = false`)
anywhere in the text?  With `cs = true` this is plain substring containment. -/
def occursPat (cs : Bool) (pat : List Char) : List Char → Bool
  | [] => matchHead cs pat []
  | c :: rest => matchHead cs pat (c :: rest) || occursPat cs pat rest

/-- Does some character of `l` fold to the same character as `c`? -/
def charIn (cs : Bool) (c : Char) (l : List Char) : Bool :=
  l.any (fun d => foldC cs d == foldC cs c)

/-! ### Basic rewriting lemmas for the scanner -/

theorem subGo_skip (cs : Bool) (pat repl : List Char) :
    ∀ (k : Nat) (s : List Char),
      subGo cs pat repl k s = subGo cs pat repl 0 (s.drop k) := by
  intro k
  induction k with
  | zero => intro s; simp
  | succ k ih =>
    intro s
    cases s with
    | nil => simp [subGo]
    | cons c rest => simpa [subGo] using ih rest

theorem reSub_nil (cs : Bool) (p : Char) (ps repl : List Char) :
    reSub cs (p :: ps) repl [] = [] := rfl

theorem reSub_cons_match (cs : Bool) (p : Char) (ps repl : List Char)
    (c : Char) (rest : List Char)
    (h : matchHead cs (p :: ps) (c :: rest) = true) :
    reSub cs (p :: ps) repl (c :: rest)
      = repl ++ reSub cs (p :: ps) repl (rest.drop ps.length) := by
  simp only [reSub, subGo, h, if_true]
  rw [subGo_skip]
  simp

theorem reSub_cons_nomatch (cs : Bool) (p : Char) (ps repl : List Char)
    (c : Char) (rest : List Char)
    (h : matchHead cs (p :: ps) (c :: rest) = false) :
    reSub cs (p :: ps) repl (c :: rest) = c :: reSub cs (p :: ps) repl rest := by
  simp only [reSub, subGo, h]
  simp

theorem matchHead_length_le (cs : Bool) :
    ∀ (pat s : List Char), matchHead cs pat s = true → pat.length ≤ s.length := by
  intro pat
  induction pat with
  | nil => intro s _; simp
  | cons p ps ih =>
    intro s h
    cases s with
    | nil => simp [matchHead] at h
    | cons c rest =>
      simp only [matchHead, Bool.and_eq_true] at h
      simpa using Nat.succ_le_succ (ih rest h.2)

/-- Replacing a pattern that does not occur in the text is the identity. -/
theorem reSub_of_not_occurs (cs : Bool) (p : Char) (ps repl : List Char) :
    ∀ s : List Char, occursPat cs (p :: ps) s = false →
      reSub cs (p :: ps) repl s = s := by
  intro s
  induction s with
  | nil => intro _; rfl
  | cons c rest ih =>
    intro h
    simp only [occursPat, Bool.or_eq_false_iff] at h
    rw [reSub_cons_nomatch cs p ps repl c rest h.1, ih h.2]

/-- If none of the (non-empty) terms occurs in the text, `redact_text` is the
identity on it. -/
theorem redact_text_of_not_occurs (X : List Char) (S : List (List Char))
    (cs : Bool)
    (h : ∀ t ∈ S, t.isEmpty = false → occursPat cs t X = false) :
    redact_text X S cs = X := by
  unfold redact_text
  by_cases hguard : X.isEmpty || S.isEmpty
  · simp [hguard]
  · simp only [hguard, if_false]
    have hfold : ∀ l : List (List Char),
        (∀ t ∈ l, t.isEmpty = false ∧ occursPat cs t X = false) →
        l.foldl (fun acc t => reSub cs t marker acc) X = X := by
      intro l
      induction l with
      | nil => intro _; rfl
      | cons t l ih =>
        intro hl
        obtain ⟨hne, hocc⟩ := hl t (by simp)
        have : reSub cs t marker X = X := by
          cases t with
          | nil => simp at hne
          | cons p ps => exact reSub_of_not_occurs cs p ps marker X hocc
        simp only [List.foldl_cons, this]
        exact ih (fun u hu => hl u (by simp [hu]))
    apply hfold
    intro t ht
    rw [List.mem_filter] at ht
    have hne : t.isEmpty = false := by
      cases h' : t.isEmpty <;> simp_all
    exact ⟨hne, h t ht.1 hne⟩

/-- Filtering out empty terms is idempotent. -/
theorem filter_nonempty_idem (l : List (List Char)) :
    (l.filter (fun t => !t.isEmpty)).filter (fun t => !t.isEmpty)
      = l.filter (fun t => !t.isEmpty) := by
  induction l with
  | nil => rfl
  | cons t l ih =>
    cases h : t.isEmpty <;> simp [List.filter, h, ih]

/-- A text that is a full-length (case-folded) match of a single term is
replaced by exactly the marker. -/
theorem redact_single_full_match (cs : Bool) (u t : List Char)
    (ht : t ≠ []) (hlen : u.length = t.length)
    (hm : matchHead cs t u = true) :
    redact_text u [t] cs = marker := by
  cases t with
  | nil => exact absurd rfl ht
  | cons p ps =>
    cases u with
    | nil => simp [matchHead] at hm
    | cons c rest =>
      have hu : (c :: rest : List Char).isEmpty = false := rfl
      have hrest : rest.length = ps.length := by
        simpa using hlen
      unfold redact_text
      simp only [hu, List.isEmpty_cons, Bool.or_self, if_false, Bool.false_or]
      have hfilter : ([p :: ps] : List (List Char)).filter (fun t => !t.isEmpty)
          = [p :: ps] := rfl
      rw [hfilter]
      simp only [List.foldl_cons, List.foldl_nil]
      rw [reSub_cons_match cs p ps marker c rest hm]
      rw [List.drop_eq_nil_of_le (by omega)]
      rw [reSub_nil]
      simp

/-- **C5.** Redaction is a no-op on degenerate inputs: empty text yields the
empty text for every term set, and an empty term set returns the text
unchanged. -/
theorem redact_noop_on_empty :
    (∀ (S : List (List Char)) (cs : Bool), redact_text [] S cs = [])
    ∧ (∀ (T : List Char) (cs : Bool), redact_text T [] cs = T) := by
  constructor <;> intros <;> simp [redact_text]

/-- **C3.** Matching is literal, never pattern-based: the term `a.b` (whose
`.` would be a wildcard were the pattern not escaped) redacts exactly the text
`a.b` and leaves `aXb` and `axb` untouched. -/
theorem redact_literal_matching :
    redact_text ("a.b".toList) [("a.b".toList)] = marker
    ∧ redact_text ("aXb".toList) [("a.b".toList)] = "aXb".toList
    ∧ redact_text ("axb".toList) [("a.b".toList)] = "axb".toList := by
  refine ⟨by decide, by decide, by decide⟩

/-- **C4.** Redaction is case-insensitive by default and case-sensitive only
when configured: any full-length case-folded variant of a term is replaced by
the marker, in particular `redact("Secret", ["secret"]) = "[REDACTED]"`, while
with `case_sensitive = true` the differently-cased `Secret` is untouched. -/
theorem redact_case_insensitivity_default :
    (∀ u t : List Char, t ≠ [] → u.length = t.length →
        matchHead false t u = true → redact_text u [t] = marker)
    ∧ redact_text ("Secret".toList) [("secret".toList)] = marker
    ∧ redact_text ("Secret".toList) [("secret".toList)] true = "Secret".toList := by
  refine ⟨fun u t ht hlen hm => redact_single_full_match false u t ht hlen hm,
    by decide, by decide⟩

/-- Witness for C4: the mixed-case text `sEcReT` is a full case-folded match of
the term `secret`, so it is redacted to the marker. -/
theorem redact_case_insensitivity_default_witness :
    redact_text ("sEcReT".toList) [("secret".toList)] = marker :=
  redact_case_insensitivity_default.1 ("sEcReT".toList) ("secret".toList)
    (by decide) (by decide) (by decide)

/-- **C6.** Redaction is non-destructive on non-matches: if no (non-empty) term
of `S` has a case-insensitive occurrence in `T`, then `redact_text` returns `T`
verbatim. -/
theorem redact_nondestructive_on_nonmatch (T : List Char) (S : List (List Char))
    (h : ∀ t ∈ S, t.isEmpty = false → occursPat false t T = false) :
    redact_text T S = T :=
  redact_text_of_not_occurs T S false h

/-- Witness for C6: a text containing whitespace and a page-boundary marker,
with no occurrence of the term `secret`, is returned byte-for-byte. -/
theorem redact_nondestructive_on_nonmatch_witness :
    redact_text ("\n\n--- Page 1 ---\n\nhello".toList) [("secret".toList)]
      = "\n\n--- Page 1 ---\n\nhello".toList :=
  redact_nondestructive_on_nonmatch ("\n\n--- Page 1 ---\n\nhello".toList)
    [("secret".toList)] (by decide)

/-- **C1 (amended).** Redaction is idempotent on its own output provided no
term has a case-folded occurrence in that output: then re-running redaction
with the same term set is a no-op. -/
theorem redact_idempotent_amended (T : List Char) (S : List (List Char))
    (cs : Bool)
    (h : ∀ t ∈ S, t.isEmpty = false → occursPat cs t (redact_text T S cs) = false) :
    redact_text (redact_text T S cs) S cs = redact_text T S cs :=
  redact_text_of_not_occurs (redact_text T S cs) S cs h

/-- Witness for C1 (amended): `b` does not occur in `a[REDACTED]c`, so
redacting `abc` twice with term `b` equals redacting it once. -/
theorem redact_idempotent_amended_witness :
    redact_text (redact_text ("abc".toList) [("b".toList)]) [("b".toList)]
      = redact_text ("abc".toList) [("b".toList)] :=
  redact_idempotent_amended ("abc".toList) [("b".toList)] false (by decide)

/-- Counterexample for C1 as stated: the term set `["red"]` neither contains
the marker as a term nor has any term containing the marker text, yet redaction
is not idempotent: `redact("red") = "[REDACTED]"`, and re-running matches `RED`
inside the marker case-insensitively, producing `"[[REDACTED]ACTED]"`. -/
theorem redact_idempotent_counterexample :
    marker ∉ ([("red".toList)] : List (List Char))
    ∧ occursPat true marker ("red".toList) = false
    ∧ redact_text (redact_text ("red".toList) [("red".toList)]) [("red".toList)]
        ≠ redact_text ("red".toList) [("red".toList)] := by
  refine ⟨by decide, by decide, by decide⟩

/-- **C10.** Only exactly-empty terms are skipped: redacting with `S` equals
redacting with the empty strings removed from `S`; a whitespace-only term such
as a single space is matched literally — `redact("a b", [" "]) = "a[REDACTED]b"`. -/
theorem redact_skips_only_empty_terms :
    (∀ (T : List Char) (S : List (List Char)) (cs : Bool),
        redact_text T S cs = redact_text T (S.filter (fun t => !t.isEmpty)) cs)
    ∧ redact_text ("a b".toList) [(" ".toList)] = "a[REDACTED]b".toList := by
  constructor
  · intro T S cs
    by_cases hT : T.isEmpty
    · simp [redact_text, hT]
    · by_cases hS : S.isEmpty
      · cases S with
        | nil => rfl
        | cons a l => simp at hS
      · by_cases hF : (S.filter (fun t => !t.isEmpty)).isEmpty
        · have hnil : S.filter (fun t => !t.isEmpty) = [] := by
            simpa [List.isEmpty_iff] using hF
          simp [redact_text, hT, hS, hnil]
        · simp only [redact_text, hT, hS, hF, Bool.or_self, if_false,
            Bool.false_or]
          rw [filter_nonempty_idem]
  · decide

/-! ### Document text building (`extract_and_redact_text`, lines 67-72) -/

/-- The page-boundary marker `f"\n\n--- Page {page_num + 1} ---\n\n"`,
surrounded by blank lines and carrying a 1-based page number. -/
def pageMarker (n : Nat) : List Char :=
  "\n\n--- Page ".toList ++ (Nat.repr n).toList ++ " ---\n\n".toList

/-- The accumulation loop of `extract_and_redact_text`: starting from the empty
string, each page with non-empty text appends its boundary marker followed by
its text.  The extractor (PyMuPDF) is external; its per-page results are the
input list. -/
def extract_full_text (pages : List (List Char)) : List Char :=
  pages.enum.foldl
    (fun acc pg => if pg.2.isEmpty then acc else acc ++ pageMarker (pg.1 + 1) ++ pg.2)
    []

/-- Spec-side restatement of the Document Record Builder (spec §4.4), for the
refinement comparison: the concatenation, in page order, of marker-plus-text
blocks of exactly the pages with non-empty text. -/
def build_document_text (pages : List (List Char)) : List Char :=
  (pages.enum.filter (fun pg => !pg.2.isEmpty)).flatMap
    (fun pg => pageMarker (pg.1 + 1) ++ pg.2)

theorem foldl_pages_eq (l : List (Nat × List Char)) :
    ∀ acc : List Char,
      l.foldl (fun acc pg => if pg.2.isEmpty then acc else acc ++ pageMarker (pg.1 + 1) ++ pg.2) acc
      = acc ++ (l.filter (fun pg => !pg.2.isEmpty)).flatMap
          (fun pg => pageMarker (pg.1 + 1) ++ pg.2) := by
  induction l with
  | nil => intro acc; simp
  | cons x l ih =>
    intro acc
    rw [List.foldl_cons, List.filter_cons]
    cases hx : x.2.isEmpty
    · simp only [hx, Bool.not_false, if_true, if_false, List.flatMap_cons]
      rw [ih]
      simp [List.append_assoc]
    · simp only [hx, Bool.not_true, if_true, if_false]
      rw [ih]
      simp

theorem enumFrom_filter_of_all_empty (pages : List (List Char))
    (h : ∀ p ∈ pages, p = []) :
    ∀ n, (List.enumFrom n pages).filter (fun pg => !pg.2.isEmpty) = [] := by
  induction pages with
  | nil => intro n; rfl
  | cons p ps ih =>
    intro n
    have hp : p = [] := h p (by simp)
    have hrec := ih (fun q hq => h q (by simp [hq])) (n + 1)
    simp [List.enumFrom, List.filter_cons, hp, hrec]

theorem extract_full_text_of_all_empty (pages : List (List Char))
    (h : ∀ p ∈ pages, p = []) : extract_full_text pages = [] := by
  unfold extract_full_text
  rw [foldl_pages_eq]
  have : pages.enum.filter (fun pg => !pg.2.isEmpty) = [] :=
    enumFrom_filter_of_all_empty pages h 0
  simp [this]

/-- **C7.** Building the document text: each page with non-empty text
contributes its boundary marker (1-based page number, surrounded by blank
lines) followed by its text, in page order; empty pages contribute nothing;
and the result is empty when every page is empty. -/
theorem extract_builds_document_text (pages : List (List Char)) :
    extract_full_text pages = build_document_text pages
    ∧ ((∀ p ∈ pages, p = []) → extract_full_text pages = []) := by
  refine ⟨?_, extract_full_text_of_all_empty pages⟩
  unfold extract_full_text build_document_text
  simpa using foldl_pages_eq pages.enum []

/-- Witness for C7: a two-page document with one empty page yields exactly the
non-empty page's marker-plus-text block, and an all-empty document yields the
empty string. -/
theorem extract_builds_document_text_witness :
    extract_full_text [[], ("hi".toList)]
      = build_document_text [[], ("hi".toList)]
    ∧ extract_full_text [[], []] = [] :=
  ⟨(extract_builds_document_text [[], ("hi".toList)]).1,
   (extract_builds_document_text [[], []]).2 (by decide)⟩

/-! ### Term loading (`load_terms`, lines 16-28) -/

/-- Python `str.strip()`: remove leading and trailing whitespace. -/
def strip (l : List Char) : List Char :=
  ((l.dropWhile Char.isWhitespace).reverse.dropWhile Char.isWhitespace).reverse

/-- Split a text into its lines at newline characters (the line iteration of
`for line in f`; the terminating newline each Python line keeps is removed by
`strip` anyway, so it is dropped here). -/
def splitLinesAux : List Char → List Char → List (List Char)
  | cur, [] => [cur.reverse]
  | cur, c :: rest =>
    if c = '\n' then cur.reverse :: splitLinesAux [] rest
    else splitLinesAux (c :: cur) rest

def splitLines (s : List Char) : List (List Char) := splitLinesAux [] s

/-- `load_terms` on the term file's content, from the source comprehension
`[line.strip() for line in f if line.strip()]`.  (File opening and its error
handling are I/O, outside this model.) -/
def load_terms (content : List Char) : List (List Char) :=
  (splitLines content).filterMap
    (fun line => if (strip line).isEmpty then none else some (strip line))

/-- Spec-side restatement of the Term Set Loader (spec §4.1), for the
refinement comparison: the lines, each stripped, with the blank ones discarded
and the order preserved. -/
def load_terms_spec (content : List Char) : List (List Char) :=
  ((splitLines content).map strip).filter (fun t => !t.isEmpty)

theorem dropWhile_dropWhile (p : Char → Bool) :
    ∀ l : List Char, (l.dropWhile p).dropWhile p = l.dropWhile p := by
  intro l
  induction l with
  | nil => rfl
  | cons c rest ih =>
    by_cases hc : p c
    · simp [List.dropWhile_cons, hc, ih]
    · simp [List.dropWhile_cons, hc]

theorem dropWhile_head_false (p : Char → Bool) :
    ∀ (l : List Char) (c : Char) (w : List Char),
      l.dropWhile p = c :: w → p c = false := by
  intro l
  induction l with
  | nil => intro c w h; simp at h
  | cons d rest ih =>
    intro c w h
    by_cases hd : p d
    · rw [List.dropWhile_cons, if_pos hd] at h
      exact ih c w h
    · rw [List.dropWhile_cons, if_neg hd] at h
      cases h
      simpa using hd

theorem dropWhile_decomp (p : Char → Bool) :
    ∀ l : List Char, ∃ t, l = t ++ l.dropWhile p := by
  intro l
  induction l with
  | nil => exact ⟨[], rfl⟩
  | cons c rest ih =>
    by_cases hc : p c
    · obtain ⟨t, ht⟩ := ih
      refine ⟨c :: t, ?_⟩
      rw [List.dropWhile_cons, if_pos hc]
      simpa using ht
    · exact ⟨[], by rw [List.dropWhile_cons, if_neg hc]; rfl⟩

/-- `strip` is idempotent: a stripped line has no surrounding whitespace left. -/
theorem strip_idem (l : List Char) : strip (strip l) = strip l := by
  have hm : strip l = ((l.dropWhile Char.isWhitespace).reverse.dropWhile
      Char.isWhitespace).reverse := rfl
  have h2 : ((l.dropWhile Char.isWhitespace).reverse.dropWhile
      Char.isWhitespace).dropWhile Char.isWhitespace
      = (l.dropWhile Char.isWhitespace).reverse.dropWhile Char.isWhitespace :=
    dropWhile_dropWhile Char.isWhitespace _
  have h1 : (strip l).dropWhile Char.isWhitespace = strip l := by
    cases hrr : strip l with
    | nil => rfl
    | cons c w =>
      obtain ⟨t, ht⟩ :=
        dropWhile_decomp Char.isWhitespace (l.dropWhile Char.isWhitespace).reverse
      have hmm : l.dropWhile Char.isWhitespace = (strip l) ++ t.reverse := by
        have := congrArg List.reverse ht
        simpa [hm] using this
      have hc : Char.isWhitespace c = false := by
        apply dropWhile_head_false Char.isWhitespace l c (w ++ t.reverse)
        rw [hmm, hrr]
        rfl
      rw [List.dropWhile_cons, if_neg (by simp [hc])]
  show (((strip l).dropWhile Char.isWhitespace).reverse.dropWhile
      Char.isWhitespace).reverse = strip l
  rw [h1, hm, List.reverse_reverse, h2]

theorem filterMap_strip_eq (lines : List (List Char)) :
    lines.filterMap (fun line =>
        if (strip line).isEmpty then none else some (strip line))
      = (lines.map strip).filter (fun t => !t.isEmpty) := by
  induction lines with
  | nil => rfl
  | cons a l ih =>
    rw [List.filterMap_cons, List.map_cons, List.filter_cons]
    cases h : (strip a).isEmpty <;> simp [h] <;> simpa using ih

/-- **C8.** Term loading returns exactly the file's lines with surrounding
whitespace stripped, the blank ones discarded and the order preserved; every
loaded term is non-empty and already stripped (so reloading the loaded
sequence's own lines is a no-op, and loading the same content always yields
the same sequence). -/
theorem load_terms_correct (content : List Char) :
    load_terms content = load_terms_spec content
    ∧ (∀ t ∈ load_terms content, t.isEmpty = false ∧ strip t = t) := by
  constructor
  · exact filterMap_strip_eq (splitLines content)
  · intro t ht
    unfold load_terms at ht
    rw [List.mem_filterMap] at ht
    obtain ⟨line, _, hline⟩ := ht
    by_cases h : (strip line).isEmpty
    · simp [h] at hline
    · rw [if_neg h] at hline
      cases hline
      exact ⟨by simpa using h, strip_idem line⟩

/-- Witness for C8: on the content `" alpha \n\nbeta\n"` loading matches the
spec-side builder, and the loaded term `alpha` is non-empty and stripped. -/
theorem load_terms_correct_witness :
    load_terms (" alpha \n\nbeta\n".toList)
        = load_terms_spec (" alpha \n\nbeta\n".toList)
    ∧ (("alpha".toList : List Char).isEmpty = false
        ∧ strip ("alpha".toList) = "alpha".toList) :=
  ⟨(load_terms_correct (" alpha \n\nbeta\n".toList)).1,
   (load_terms_correct (" alpha \n\nbeta\n".toList)).2 ("alpha".toList) (by decide)⟩

/-! ### Per-document pipeline and batch loop (`text_redact_pdf`, `main`) -/

/-- `extract_and_redact_text` on a successfully opened document: concatenate
the per-page texts (with boundary markers), then redact with the default
case-insensitive setting. -/
def extract_and_redact_text (pages : List (List Char))
    (terms : List (List Char)) : List Char :=
  redact_text (extract_full_text pages) terms

/-- `text_redact_pdf`'s decision, lines 94-107: the output file is written only
when `redacted_text and redacted_text.strip()` is truthy; otherwise the
function returns `False` and nothing is written.  The `Bool` is the return
value, the `Option` the written body (if any). -/
def text_redact_pdf (pages : List (List Char)) (terms : List (List Char)) :
    Bool × Option (List Char) :=
  let r := extract_and_redact_text pages terms
  if !r.isEmpty && !(strip r).isEmpty then (true, some r) else (false, none)

/-- The success/failure tally of `main`'s loop, lines 136-152: each document
either increments the success counter or the failure counter. -/
def runBatch (terms : List (List Char)) (docs : List (List (List Char))) :
    Nat × Nat :=
  docs.foldl
    (fun sf doc =>
      if (text_redact_pdf doc terms).1 then (sf.1 + 1, sf.2) else (sf.1, sf.2 + 1))
    (0, 0)

theorem runBatch_counts (terms : List (List Char)) :
    ∀ (docs : List (List (List Char))) (s f : Nat),
      docs.foldl
        (fun sf doc =>
          if (text_redact_pdf doc terms).1 then (sf.1 + 1, sf.2)
          else (sf.1, sf.2 + 1))
        (s, f)
      = (s + docs.countP (fun doc => (text_redact_pdf doc terms).1),
         f + docs.countP (fun doc => !(text_redact_pdf doc terms).1)) := by
  intro docs
  induction docs with
  | nil => intro s f; simp
  | cons d l ih =>
    intro s f
    rw [List.foldl_cons]
    cases hd : (text_redact_pdf d terms).1 <;>
      simp only [hd, if_true, if_false, Bool.not_true, Bool.not_false, ih,
        List.countP_cons, hd] <;>
      refine Prod.ext ?_ ?_ <;> simp <;> omega

/-- **C9.** Per-document failure handling: a document whose pages all extract
to empty text, or whose redacted text is blank, produces no output, returns
failure, and — inserted anywhere into a batch — leaves the success count
unchanged and increments the failure count by exactly one while the remaining
documents are still processed; moreover an output body is only ever produced
when it is non-blank after stripping. -/
theorem per_document_failure_handling (pages : List (List Char))
    (terms : List (List Char))
    (h : (∀ p ∈ pages, p = [])
        ∨ (strip (extract_and_redact_text pages terms)).isEmpty = true) :
    text_redact_pdf pages terms = (false, none)
    ∧ (∀ pre post : List (List (List Char)),
        runBatch terms (pre ++ pages :: post)
          = ((runBatch terms (pre ++ post)).1,
             (runBatch terms (pre ++ post)).2 + 1))
    ∧ (∀ (doc : List (List Char)) (r : List Char),
        (text_redact_pdf doc terms).2 = some r → (strip r).isEmpty = false) := by
  have hfail : text_redact_pdf pages terms = (false, none) := by
    unfold text_redact_pdf
    cases h with
    | inl hempty =>
      have hx : extract_full_text pages = [] :=
        extract_full_text_of_all_empty pages hempty
      have hr : extract_and_redact_text pages terms = [] := by
        unfold extract_and_redact_text
        rw [hx]
        simp [redact_text]
      simp [hr]
    | inr hblank =>
      simp [hblank]
  refine ⟨hfail, ?_, ?_⟩
  · intro pre post
    unfold runBatch
    rw [runBatch_counts, runBatch_counts]
    have hb : (text_redact_pdf pages terms).1 = false := by rw [hfail]
    simp [List.countP_append, List.countP_cons, hb]
    omega
  · intro doc r hr
    unfold text_redact_pdf at hr
    by_cases hgate : !(extract_and_redact_text doc terms).isEmpty
        && !(strip (extract_and_redact_text doc terms)).isEmpty
    · rw [if_pos hgate] at hr
      cases hr
      rcases Bool.and_eq_true_iff.mp hgate with ⟨_, h2⟩
      simpa using h2
    · rw [if_neg hgate] at hr
      simp at hr

/-- Witness for C9: a two-page document whose pages are both empty is rejected
by the write gate: no body is produced and the return value is failure. -/
theorem per_document_failure_handling_witness :
    text_redact_pdf [[], []] [("a".toList)] = (false, none) :=
  (per_document_failure_handling [[], []] [("a".toList)] (Or.inl (by decide))).1

/-! ### Commutation of substitutions for letter-disjoint terms (for C2) -/

theorem charIn_false_symm (cs : Bool) (a b : List Char)
    (h : ∀ x ∈ a, charIn cs x b = false) :
    ∀ y ∈ b, charIn cs y a = false := by
  intro y hy
  cases hc : charIn cs y a
  · rfl
  · exfalso
    unfold charIn at hc
    rw [List.any_eq_true] at hc
    obtain ⟨d, hd, hdy⟩ := hc
    have hdb := h d hd
    unfold charIn at hdb
    rw [List.any_eq_false] at hdb
    have hcontr := hdb y hy
    rw [beq_iff_eq] at hdy
    simp only [beq_iff_eq] at hcontr
    exact hcontr hdy.symm

theorem matchHead_cons_iff (cs : Bool) (p : Char) (ps : List Char) (c : Char)
    (t : List Char) :
    matchHead cs (p :: ps) (c :: t) = true
      ↔ foldC cs p = foldC cs c ∧ matchHead cs ps t = true := by
  simp [matchHead, Bool.and_eq_true, beq_iff_eq]

theorem matchHead_chars_take (cs : Bool) :
    ∀ (pat s : List Char), matchHead cs pat s = true →
      ∀ c' ∈ s.take pat.length, ∃ d ∈ pat, foldC cs d = foldC cs c' := by
  intro pat
  induction pat with
  | nil => intro s _ c' hc'; simp at hc'
  | cons p ps ih =>
    intro s h c' hc'
    cases s with
    | nil => simp [matchHead] at h
    | cons c rest =>
      rw [matchHead_cons_iff] at h
      rw [List.length_cons, List.take_succ_cons] at hc'
      rcases List.mem_cons.mp hc' with hc' | hc'
      · exact ⟨p, by simp, by rw [h.1, hc']⟩
      · obtain ⟨d, hd, hdc⟩ := ih rest h.2 c' hc'
        exact ⟨d, by simp [hd], hdc⟩

theorem matchHead_take_append (cs : Bool) :
    ∀ (pat s X : List Char), matchHead cs pat s = true →
      matchHead cs pat (s.take pat.length ++ X) = true := by
  intro pat
  induction pat with
  | nil => intro s X _; rfl
  | cons p ps ih =>
    intro s X h
    cases s with
    | nil => simp [matchHead] at h
    | cons c rest =>
      rw [matchHead_cons_iff] at h
      rw [List.length_cons, List.take_succ_cons, List.cons_append]
      rw [matchHead_cons_iff]
      exact ⟨h.1, ih rest X h.2⟩

/-- Substitution passes over a block of characters none of which can begin a
match (their folded images differ from the pattern's folded head). -/
theorem reSub_append_of_chars_ne (cs : Bool) (p : Char) (ps repl : List Char) :
    ∀ (u z : List Char), (∀ x ∈ u, (foldC cs p == foldC cs x) = false) →
      reSub cs (p :: ps) repl (u ++ z) = u ++ reSub cs (p :: ps) repl z := by
  intro u
  induction u with
  | nil => intro z _; rfl
  | cons x u' ih =>
    intro z hu
    have hx : (foldC cs p == foldC cs x) = false := hu x (by simp)
    have hm : matchHead cs (p :: ps) (x :: (u' ++ z)) = false := by
      simp [matchHead, hx]
    rw [List.cons_append, reSub_cons_nomatch cs p ps repl x (u' ++ z) hm]
    rw [ih z (fun y hy => hu y (by simp [hy]))]
    rw [List.cons_append]

/-- If a pattern matches at the head of a substituted text and its characters
are letter-disjoint from the replacement, it already matched at the head of the
original text. -/
theorem matchHead_of_reSub (cs : Bool) (p : Char) (ps repl : List Char)
    (hrepl : repl ≠ []) :
    ∀ (s a' : List Char), (∀ x ∈ a', charIn cs x repl = false) →
      matchHead cs a' (reSub cs (p :: ps) repl s) = true →
      matchHead cs a' s = true := by
  intro s
  induction s with
  | nil => intro a' _ h; rwa [reSub_nil] at h
  | cons c rest ih =>
    intro a' ha h
    by_cases hm : matchHead cs (p :: ps) (c :: rest) = true
    · rw [reSub_cons_match cs p ps repl c rest hm] at h
      cases a' with
      | nil => rfl
      | cons x a'' =>
        exfalso
        cases hre : repl with
        | nil => exact hrepl hre
        | cons r0 rtl =>
          rw [hre, List.cons_append, matchHead_cons_iff] at h
          have hx := ha x (by simp)
          unfold charIn at hx
          rw [List.any_eq_false] at hx
          have hr0 := hx r0 (by simp [hre])
          simp only [beq_iff_eq] at hr0
          exact hr0 h.1.symm
    · have hm' : matchHead cs (p :: ps) (c :: rest) = false := by
        cases hq : matchHead cs (p :: ps) (c :: rest)
        · rfl
        · exact absurd hq hm
      rw [reSub_cons_nomatch cs p ps repl c rest hm'] at h
      cases a' with
      | nil => rfl
      | cons x a'' =>
        rw [matchHead_cons_iff] at h ⊢
        exact ⟨h.1, ih a'' (fun y hy => ha y (by simp [hy])) h.2⟩

/-- One step of the commutation argument: when `a` matches at the head and the
two terms are letter-disjoint from each other and `b` is letter-disjoint from
the marker, both composite substitutions emit the marker and continue after the
matched block. -/
theorem reSub_marker_comm_step (cs : Bool) (a0 : Char) (a1 : List Char)
    (b0 : Char) (b1 : List Char) (c : Char) (rest : List Char)
    (hbm : ∀ x ∈ b0 :: b1, charIn cs x marker = false)
    (hab : ∀ x ∈ a0 :: a1, charIn cs x (b0 :: b1) = false)
    (hm : matchHead cs (a0 :: a1) (c :: rest) = true) :
    reSub cs (a0 :: a1) marker (reSub cs (b0 :: b1) marker (c :: rest))
      = marker ++ reSub cs (a0 :: a1) marker
          (reSub cs (b0 :: b1) marker (rest.drop a1.length))
    ∧ reSub cs (b0 :: b1) marker (reSub cs (a0 :: a1) marker (c :: rest))
      = marker ++ reSub cs (b0 :: b1) marker
          (reSub cs (a0 :: a1) marker (rest.drop a1.length)) := by
  have hm' := (matchHead_cons_iff cs a0 a1 c rest).mp hm
  have hf1 : foldC cs a0 = foldC cs c := hm'.1
  have hm2 : matchHead cs a1 rest = true := hm'.2
  have hk : a1.length ≤ rest.length := by
    have := matchHead_length_le cs (a0 :: a1) (c :: rest) hm
    simpa using this
  have hb0a : ∀ x ∈ a0 :: a1, foldC cs b0 ≠ foldC cs x := by
    intro x hx
    have hcb := hab x hx
    unfold charIn at hcb
    rw [List.any_eq_false] at hcb
    have hb := hcb b0 (by simp)
    simpa [beq_iff_eq] using hb
  have hmb : matchHead cs (b0 :: b1) (c :: rest) = false := by
    cases hq : matchHead cs (b0 :: b1) (c :: rest)
    · rfl
    · exfalso
      have h1 := ((matchHead_cons_iff cs b0 b1 c rest).mp hq).1
      exact hb0a a0 (by simp) (by rw [h1, ← hf1])
  have htake : ∀ x ∈ rest.take a1.length,
      (foldC cs b0 == foldC cs x) = false := by
    intro x hx
    obtain ⟨d, hd, hdx⟩ := matchHead_chars_take cs a1 rest hm2 x hx
    rw [beq_eq_false_iff_ne, ← hdx]
    exact hb0a d (by simp [hd])
  have hsplit : reSub cs (b0 :: b1) marker rest
      = rest.take a1.length
        ++ reSub cs (b0 :: b1) marker (rest.drop a1.length) := by
    conv_lhs => rw [← List.take_append_drop a1.length rest]
    exact reSub_append_of_chars_ne cs b0 b1 marker (rest.take a1.length)
      (rest.drop a1.length) htake
  have hRb : reSub cs (b0 :: b1) marker (c :: rest)
      = c :: (rest.take a1.length
          ++ reSub cs (b0 :: b1) marker (rest.drop a1.length)) := by
    rw [reSub_cons_nomatch cs b0 b1 marker c rest hmb, hsplit]
  have hmh2 : matchHead cs (a0 :: a1)
      (c :: (rest.take a1.length
        ++ reSub cs (b0 :: b1) marker (rest.drop a1.length))) = true := by
    have h := matchHead_take_append cs (a0 :: a1) (c :: rest)
      (reSub cs (b0 :: b1) marker (rest.drop a1.length)) hm
    simpa [List.take_succ_cons, List.cons_append] using h
  have hlen_take : (rest.take a1.length).length = a1.length :=
    List.length_take_of_le hk
  have hdrop : ∀ X : List Char,
      (rest.take a1.length ++ X).drop a1.length = X := by
    intro X
    have h := List.drop_left (rest.take a1.length) X
    rwa [hlen_take] at h
  constructor
  · rw [hRb, reSub_cons_match cs a0 a1 marker _ _ hmh2, hdrop]
  · rw [reSub_cons_match cs a0 a1 marker c rest hm]
    have hmarker : ∀ x ∈ marker, (foldC cs b0 == foldC cs x) = false := by
      intro x hx
      have hcb := hbm b0 (by simp)
      unfold charIn at hcb
      rw [List.any_eq_false] at hcb
      have h2 := hcb x hx
      rw [beq_eq_false_iff_ne]
      intro hcontr
      rw [beq_iff_eq] at h2
      exact h2 hcontr.symm
    exact reSub_append_of_chars_ne cs b0 b1 marker marker _ hmarker

/-- Substitutions for two letter-disjoint terms, both letter-disjoint from the
marker, commute on every text. -/
theorem reSub_marker_comm (cs : Bool) (a0 : Char) (a1 : List Char)
    (b0 : Char) (b1 : List Char)
    (ham : ∀ x ∈ a0 :: a1, charIn cs x marker = false)
    (hbm : ∀ x ∈ b0 :: b1, charIn cs x marker = false)
    (hab : ∀ x ∈ a0 :: a1, charIn cs x (b0 :: b1) = false) :
    ∀ s, reSub cs (a0 :: a1) marker (reSub cs (b0 :: b1) marker s)
        = reSub cs (b0 :: b1) marker (reSub cs (a0 :: a1) marker s) := by
  have hba : ∀ y ∈ b0 :: b1, charIn cs y (a0 :: a1) = false :=
    charIn_false_symm cs (a0 :: a1) (b0 :: b1) hab
  have hmarker_ne : (marker : List Char) ≠ [] := by decide
  suffices H : ∀ n (s : List Char), s.length ≤ n →
      reSub cs (a0 :: a1) marker (reSub cs (b0 :: b1) marker s)
        = reSub cs (b0 :: b1) marker (reSub cs (a0 :: a1) marker s) by
    intro s
    exact H s.length s le_rfl
  intro n
  induction n with
  | zero =>
    intro s hs
    have hnil : s = [] := by
      cases s with
      | nil => rfl
      | cons c r => simp at hs
    subst hnil
    simp only [reSub_nil]
  | succ n ih =>
    intro s hs
    cases s with
    | nil => simp only [reSub_nil]
    | cons c rest =>
      have hrest : rest.length ≤ n := by simpa using hs
      by_cases hma : matchHead cs (a0 :: a1) (c :: rest) = true
      · obtain ⟨h1, h2⟩ :=
          reSub_marker_comm_step cs a0 a1 b0 b1 c rest hbm hab hma
        rw [h1, h2]
        congr 1
        exact ih (rest.drop a1.length) (by rw [List.length_drop]; omega)
      · by_cases hmb : matchHead cs (b0 :: b1) (c :: rest) = true
        · obtain ⟨h1, h2⟩ :=
            reSub_marker_comm_step cs b0 b1 a0 a1 c rest ham hba hmb
          rw [h1, h2]
          congr 1
          exact ih (rest.drop b1.length) (by rw [List.length_drop]; omega)
        · have hma' : matchHead cs (a0 :: a1) (c :: rest) = false := by
            cases hq : matchHead cs (a0 :: a1) (c :: rest)
            · rfl
            · exact absurd hq hma
          have hmb' : matchHead cs (b0 :: b1) (c :: rest) = false := by
            cases hq : matchHead cs (b0 :: b1) (c :: rest)
            · rfl
            · exact absurd hq hmb
          rw [reSub_cons_nomatch cs b0 b1 marker c rest hmb']
          rw [reSub_cons_nomatch cs a0 a1 marker c rest hma']
          have hno1 : matchHead cs (a0 :: a1)
              (c :: reSub cs (b0 :: b1) marker rest) = false := by
            cases hq : matchHead cs (a0 :: a1)
                (c :: reSub cs (b0 :: b1) marker rest)
            · rfl
            · exfalso
              have hcr : (c :: reSub cs (b0 :: b1) marker rest)
                  = reSub cs (b0 :: b1) marker (c :: rest) :=
                (reSub_cons_nomatch cs b0 b1 marker c rest hmb').symm
              rw [hcr] at hq
              have h := matchHead_of_reSub cs b0 b1 marker hmarker_ne
                (c :: rest) (a0 :: a1) ham hq
              exact absurd h hma
          have hno2 : matchHead cs (b0 :: b1)
              (c :: reSub cs (a0 :: a1) marker rest) = false := by
            cases hq : matchHead cs (b0 :: b1)
                (c :: reSub cs (a0 :: a1) marker rest)
            · rfl
            · exfalso
              have hcr : (c :: reSub cs (a0 :: a1) marker rest)
                  = reSub cs (a0 :: a1) marker (c :: rest) :=
                (reSub_cons_nomatch cs a0 a1 marker c rest hma').symm
              rw [hcr] at hq
              have h := matchHead_of_reSub cs a0 a1 marker hmarker_ne
                (c :: rest) (b0 :: b1) hbm hq
              exact absurd h hmb
          rw [reSub_cons_nomatch cs a0 a1 marker c
            (reSub cs (b0 :: b1) marker rest) hno1]
          rw [reSub_cons_nomatch cs b0 b1 marker c
            (reSub cs (a0 :: a1) marker rest) hno2]
          rw [ih rest hrest]

/-- A left fold is invariant under permutation of the list when the fold steps
for any two list elements commute from every state. -/
theorem foldl_eq_of_perm_of_comm {α β : Type} (f : β → α → β) :
    ∀ {l₁ l₂ : List α}, l₁.Perm l₂ →
      (∀ x ∈ l₁, ∀ y ∈ l₁, ∀ z : β, f (f z x) y = f (f z y) x) →
      ∀ b : β, l₁.foldl f b = l₂.foldl f b := by
  intro l₁ l₂ hp
  induction hp with
  | nil => intro _ b; rfl
  | cons x p ih =>
    intro hc b
    simp only [List.foldl_cons]
    exact ih (fun u hu v hv z =>
      hc u (List.mem_cons_of_mem x hu) v (List.mem_cons_of_mem x hv) z) (f b x)
  | swap x y l =>
    intro hc b
    simp only [List.foldl_cons]
    rw [hc y (by simp) x (by simp) b]
  | trans p1 p2 ih1 ih2 =>
    intro hc b
    rw [ih1 hc b]
    refine ih2 ?_ b
    intro u hu v hv z
    exact hc u (p1.mem_iff.mpr hu) v (p1.mem_iff.mpr hv) z

/-- **C2 (amended).** Redaction is order-independent for letter-disjoint
terms: if the terms of `S` share no case-folded character with each other or
with the redaction marker, then applying them in any permutation of `S` yields
the same redacted text. -/
theorem redact_order_independent_amended (T : List Char)
    (S S' : List (List Char)) (cs : Bool) (hp : S.Perm S')
    (hmark : ∀ a ∈ S, ∀ x ∈ a, charIn cs x marker = false)
    (hdisj : ∀ a ∈ S, ∀ b ∈ S, a ≠ b → ∀ x ∈ a, charIn cs x b = false) :
    redact_text T S cs = redact_text T S' cs := by
  unfold redact_text
  by_cases hT : T.isEmpty
  · simp [hT]
  · have hTf : T.isEmpty = false := by simpa using hT
    have hlen := hp.length_eq
    have hSe : S.isEmpty = S'.isEmpty := by
      cases S <;> cases S' <;> simp_all
    by_cases hS : S.isEmpty
    · have hS' : S'.isEmpty = true := by rw [← hSe]; exact hS
      rw [List.isEmpty_iff] at hS hS'
      subst hS
      subst hS'
      rfl
    · have hSf : S.isEmpty = false := by simpa using hS
      have hS' : S'.isEmpty = false := by rw [← hSe]; exact hSf
      simp only [hTf, hSf, hS', Bool.or_self, Bool.or_false, Bool.false_eq_true,
        if_false]
      apply foldl_eq_of_perm_of_comm _ (hp.filter (fun t => !t.isEmpty))
      intro x hx y hy z
      rw [List.mem_filter] at hx hy
      by_cases hxy : x = y
      · rw [hxy]
      · cases x with
        | nil => simp at hx
        | cons x0 x1 =>
          cases y with
          | nil => simp at hy
          | cons y0 y1 =>
            exact reSub_marker_comm cs y0 y1 x0 x1
              (hmark (y0 :: y1) hy.1) (hmark (x0 :: x1) hx.1)
              (hdisj (y0 :: y1) hy.1 (x0 :: x1) hx.1
                (fun hcontr => hxy hcontr.symm)) z

/-- Witness for C2 (amended): `xy` and `zw` are letter-disjoint from each other
and from the marker, so the two application orders agree on `"xy zw"`. -/
theorem redact_order_independent_amended_witness :
    redact_text ("xy zw".toList) [("xy".toList), ("zw".toList)]
      = redact_text ("xy zw".toList) [("zw".toList), ("xy".toList)] :=
  redact_order_independent_amended ("xy zw".toList)
    [("xy".toList), ("zw".toList)] [("zw".toList), ("xy".toList)] false
    (by decide) (by decide) (by decide)

/-- Counterexample for C2 as stated: the terms `red` and `x` are pairwise
non-overlapping — neither is a substring of the other, and `red` has no
occurrence in the text `x` at all — yet the two application orders differ:
`["red", "x"]` yields `"[REDACTED]"` while `["x", "red"]` first produces the
marker and then matches `RED` inside it, yielding `"[[REDACTED]ACTED]"`. -/
theorem redact_order_independent_counterexample :
    List.Perm ([("red".toList), ("x".toList)] : List (List Char))
        [("x".toList), ("red".toList)]
    ∧ occursPat false ("red".toList) ("x".toList) = false
    ∧ occursPat false ("x".toList) ("red".toList) = false
    ∧ redact_text ("x".toList) [("red".toList), ("x".toList)]
        ≠ redact_text ("x".toList) [("x".toList), ("red".toList)] := by
  refine ⟨by decide, by decide, by decide, by decide⟩
